import Mathlib

/-!
Shallow embedding of the Zipf's-law text-analysis engine
(`backend/app/text_processor.py`, `backend/app/cache.py` and the
endpoint logic of `backend/app/main.py`).

Modelling conventions:
* Python strings are `List Char`; characters use their Unicode scalar values.
* `str.lower()` is modelled as ASCII case folding (the spec's §4.1 step 1
  notes that ASCII a-z semantics suffice; only whether a character lands in
  `[a-z]` matters downstream, since every other character is replaced by a
  space before tokenization).
* The regex class `\s` (Python `re`, Unicode mode), `str.strip()` and
  `str.split()` all use the same whitespace set, modelled by `isPySpace`.
* `collections.Counter` is an insertion-ordered association list from word
  to count; `most_common()` is a stable sort by descending count
  (CPython sorts stably with `reverse=True` on the count key).
* Python `float` values are modelled as exact rationals `ℚ`: every number
  the engine produces is an integer count or a quotient of such.
-/

/-- The whitespace characters of Python's `re` module `\s` class (Unicode
mode), which is also the set stripped by `str.strip()` and split on by
`str.split()`. -/
def isPySpace (c : Char) : Bool :=
  decide (c.toNat ∈ ([9, 10, 11, 12, 13, 28, 29, 30, 31, 32, 0x85, 0xA0,
    0x1680, 0x2000, 0x2001, 0x2002, 0x2003, 0x2004, 0x2005, 0x2006, 0x2007,
    0x2008, 0x2009, 0x200A, 0x2028, 0x2029, 0x202F, 0x205F, 0x3000] : List Nat))

/-- Test whether `c` is a lowercase Latin letter `a`-`z`. -/
def isLowerAZ (c : Char) : Bool :=
  decide (97 ≤ c.toNat ∧ c.toNat ≤ 122)

/-- Model of `str.lower()`, ASCII case folding (see module comment). -/
def pyLower (c : Char) : Char :=
  if 65 ≤ c.toNat ∧ c.toNat ≤ 90 then Char.ofNat (c.toNat + 32) else c

/-- One character of `re.sub(r"[^a-z\s]", " ", text)`: any character that is
neither a lowercase letter nor whitespace becomes a space. -/
def substNonAlpha (c : Char) : Char :=
  if isLowerAZ c || isPySpace c then c else ' '

/-- Worker for `collapseWS`; the flag records whether the previous character
was whitespace (i.e. whether we are inside a run that already emitted its
space). -/
def collapseAux : Bool → List Char → List Char
  | _, [] => []
  | prevWS, c :: cs =>
    if isPySpace c then
      if prevWS then collapseAux true cs else ' ' :: collapseAux true cs
    else c :: collapseAux false cs

/-- Model of the substitution collapsing whitespace runs: every maximal run
of whitespace becomes a single space. -/
def collapseWS (l : List Char) : List Char :=
  collapseAux false l

/-- Model of `str.strip()`: remove leading and trailing whitespace. -/
def pyStrip (l : List Char) : List Char :=
  ((l.dropWhile isPySpace).reverse.dropWhile isPySpace).reverse

/-- The function `normalize_text` from `text_processor.py`: lowercase,
replace every non-letter with a space, collapse whitespace runs, strip. -/
def normalize_text (text : List Char) : List Char :=
  pyStrip (collapseWS ((text.map pyLower).map substNonAlpha))

/-- Worker for `pySplit`; `acc` holds the characters of the token currently
being read, in reverse. -/
def pySplitAux (acc : List Char) : List Char → List (List Char)
  | [] => if acc.isEmpty then [] else [acc.reverse]
  | c :: cs =>
    if isPySpace c then
      if acc.isEmpty then pySplitAux [] cs
      else acc.reverse :: pySplitAux [] cs
    else pySplitAux (c :: acc) cs

/-- Model of `str.split()` with no separator: the maximal whitespace-free
runs, in order; empty strings never appear. -/
def pySplit (l : List Char) : List (List Char) :=
  pySplitAux [] l

/-- The function `tokenize` from `text_processor.py`: `[]` on the empty
string, else `text.split()`. -/
def tokenize (text : List Char) : List (List Char) :=
  if text = [] then [] else pySplit text

/-- Adding one occurrence of `w` to a `Counter` (insertion-ordered
association list): bump an existing entry, else append a fresh entry with
count 1. -/
def counterAdd (m : List (List Char × Nat)) (w : List Char) :
    List (List Char × Nat) :=
  match m with
  | [] => [(w, 1)]
  | (k, c) :: rest =>
    if k = w then (k, c + 1) :: rest else (k, c) :: counterAdd rest w

/-- Model of `Counter(tokens)`: count occurrences, keys in
first-occurrence order. -/
def counterOf (tokens : List (List Char)) : List (List Char × Nat) :=
  tokens.foldl counterAdd []

/-- The function `compute_frequencies` from `text_processor.py`:
`Counter(tokenize(normalize_text(text)))`. -/
def compute_frequencies (text : List Char) : List (List Char × Nat) :=
  counterOf (tokenize (normalize_text text))

/-- The comparison `Counter.most_common()` sorts by: descending count,
stable (ties keep insertion order). `descCount a b` holds when `a` may come
before `b`. -/
def descCount (a b : List Char × Nat) : Prop := b.2 ≤ a.2

instance : DecidableRel descCount := fun a b => Nat.decLe b.2 a.2

/-- Model of `Counter.most_common()`: all entries, sorted by descending
count, stably (CPython sorts the items with the count as key, reversed). -/
def most_common (m : List (List Char × Nat)) : List (List Char × Nat) :=
  List.insertionSort descCount m

/-- The function `compute_zipf_constant` from `text_processor.py`: `0.0`
on the empty table, else the count of the most common entry
(`float(frequencies.most_common(1)[0][1])`). -/
def compute_zipf_constant (m : List (List Char × Nat)) : ℚ :=
  match most_common m with
  | [] => 0
  | p :: _ => (p.2 : ℚ)

/-- Model of Python enumerate with a given start index. -/
def pyEnumerate : Nat → List α → List (Nat × α)
  | _, [] => []
  | n, a :: l => (n, a) :: pyEnumerate (n + 1) l

/-- The `ZipfDataPoint` model from `models.py`. -/
structure ZipfDataPoint where
  rank : Nat
  word : List Char
  frequency : Nat
  expected_frequency : ℚ
  deriving DecidableEq

/-- The `data` list built by `get_zipf` in `main.py`: enumerate
`most_common()` from rank 1; `expected = zipf_constant / rank if rank > 0
else 0`. -/
def get_zipf_data (freqs : List (List Char × Nat)) : List ZipfDataPoint :=
  let zipf_constant := compute_zipf_constant freqs
  (pyEnumerate 1 (most_common freqs)).map (fun p =>
    { rank := p.1
      word := p.2.1
      frequency := p.2.2
      expected_frequency :=
        if 0 < p.1 then zipf_constant / (p.1 : ℚ) else 0 })

/-- The `CachedText` record from `cache.py` (the `content` field is
irrelevant to the endpoints modelled here and is carried opaquely). -/
structure CachedText where
  title : List Char
  content : List Char
  frequencies : List (List Char × Nat)

/-- The `WordFrequency` model from `models.py`. -/
structure WordFrequency where
  word : List Char
  count : Nat
  deriving DecidableEq

/-- The `FrequencyResponse` model from `models.py`. -/
structure FrequencyResponse where
  text_id : List Char
  title : List Char
  total_words : Nat
  unique_words : Nat
  frequencies : List WordFrequency
  deriving DecidableEq

/-- The `ZipfResponse` model from `models.py`. -/
structure ZipfResponse where
  text_id : List Char
  title : List Char
  total_words : Nat
  zipf_constant : ℚ
  data : List ZipfDataPoint
  deriving DecidableEq

/-- Outcome of an endpoint call: a response, or an
`HTTPException(status_code, detail)`. -/
inductive ApiResult (α : Type) where
  | ok : α → ApiResult α
  | httpError : Nat → List Char → ApiResult α
  deriving DecidableEq

/-- The apostrophe character (used in the 404 detail strings). -/
def squote : Char := Char.ofNat 39

/-- The not-found detail message built by `main.py`: the word Text, the
quoted identifier, then not found. -/
def notFoundDetail (text_id : List Char) : List Char :=
  "Text ".toList ++ [squote] ++ text_id ++ [squote] ++ " not found".toList

/-- The `get_frequency` endpoint of `main.py`; the cache is a lookup
function from text id to cached entry. -/
def get_frequency (cache : List Char → Option CachedText)
    (text_id : List Char) : ApiResult FrequencyResponse :=
  match cache text_id with
  | none => .httpError 404 (notFoundDetail text_id)
  | some cached =>
    .ok
      { text_id := text_id
        title := cached.title
        total_words := (cached.frequencies.map Prod.snd).sum
        unique_words := cached.frequencies.length
        frequencies := (most_common cached.frequencies).map
          (fun p => { word := p.1, count := p.2 }) }

/-- The `get_zipf` endpoint of `main.py`. -/
def get_zipf (cache : List Char → Option CachedText)
    (text_id : List Char) : ApiResult ZipfResponse :=
  match cache text_id with
  | none => .httpError 404 (notFoundDetail text_id)
  | some cached =>
    .ok
      { text_id := text_id
        title := cached.title
        total_words := (cached.frequencies.map Prod.snd).sum
        zipf_constant := compute_zipf_constant cached.frequencies
        data := get_zipf_data cached.frequencies }

/-! ### Counter lemmas -/

theorem counterAdd_sum (m : List (List Char × Nat)) (w : List Char) :
    ((counterAdd m w).map Prod.snd).sum = (m.map Prod.snd).sum + 1 := by
  induction m with
  | nil => simp [counterAdd]
  | cons p rest ih =>
    obtain ⟨k, c⟩ := p
    by_cases h : k = w
    · simp [counterAdd, h]
      omega
    · simp [counterAdd, h, ih]
      omega

theorem counterFold_sum (ts : List (List Char)) :
    ∀ m : List (List Char × Nat),
      (((ts.foldl counterAdd m).map Prod.snd)).sum
        = (m.map Prod.snd).sum + ts.length := by
  induction ts with
  | nil => intro m; simp
  | cons t rest ih =>
    intro m
    simp only [List.foldl_cons, ih, counterAdd_sum, List.length_cons]
    omega

theorem counterAdd_pos (m : List (List Char × Nat)) (w : List Char)
    (h : m.all (fun p => decide (1 ≤ p.2)) = true) :
    (counterAdd m w).all (fun p => decide (1 ≤ p.2)) = true := by
  induction m with
  | nil => simp [counterAdd]
  | cons p rest ih =>
    obtain ⟨k, c⟩ := p
    simp only [List.all_cons, Bool.and_eq_true, decide_eq_true_eq] at h
    by_cases hk : k = w
    · simp only [counterAdd, if_pos hk, List.all_cons, Bool.and_eq_true,
        decide_eq_true_eq]
      exact ⟨by omega, h.2⟩
    · simp only [counterAdd, if_neg hk, List.all_cons, Bool.and_eq_true,
        decide_eq_true_eq]
      exact ⟨h.1, ih h.2⟩

theorem counterFold_pos (ts : List (List Char)) :
    ∀ m : List (List Char × Nat),
      m.all (fun p => decide (1 ≤ p.2)) = true →
      (ts.foldl counterAdd m).all (fun p => decide (1 ≤ p.2)) = true := by
  induction ts with
  | nil => intro m h; simpa using h
  | cons t rest ih =>
    intro m h
    exact ih _ (counterAdd_pos m t h)

/-- **C1.** The counts in `compute_frequencies text` sum to the number of
tokens obtained by normalizing and tokenizing `text`, and every count in the
table is at least 1. -/
theorem compute_frequencies_sum_and_pos (text : List Char) :
    ((compute_frequencies text).map Prod.snd).sum
        = (tokenize (normalize_text text)).length ∧
      (compute_frequencies text).all (fun p => decide (1 ≤ p.2)) = true := by
  constructor
  · simpa using counterFold_sum (tokenize (normalize_text text)) []
  · exact counterFold_pos _ [] rfl

/-! ### Character-class and tokenizer lemmas -/

theorem substNonAlpha_class (c : Char) :
    (isLowerAZ (substNonAlpha c) || isPySpace (substNonAlpha c)) = true := by
  unfold substNonAlpha
  by_cases h : (isLowerAZ c || isPySpace c) = true
  · rw [if_pos h]; exact h
  · rw [if_neg h]; decide

theorem mem_collapseAux (l : List Char) :
    ∀ (b : Bool) (c : Char), c ∈ collapseAux b l → c = ' ' ∨ c ∈ l := by
  induction l with
  | nil => intro b c h; simp [collapseAux] at h
  | cons d cs ih =>
    intro b c h
    by_cases hd : isPySpace d = true
    · cases b with
      | true =>
        simp only [collapseAux, hd, if_pos] at h
        rcases ih true c h with h' | h'
        · exact Or.inl h'
        · exact Or.inr (List.mem_cons_of_mem _ h')
      | false =>
        simp only [collapseAux, hd, if_pos] at h
        rcases List.mem_cons.mp h with h' | h'
        · exact Or.inl h'
        · rcases ih true c h' with h'' | h''
          · exact Or.inl h''
          · exact Or.inr (List.mem_cons_of_mem _ h'')
    · simp only [collapseAux, hd] at h
      rcases List.mem_cons.mp h with h' | h'
      · exact Or.inr (h' ▸ List.mem_cons_self _ _)
      · rcases ih false c h' with h'' | h''
        · exact Or.inl h''
        · exact Or.inr (List.mem_cons_of_mem _ h'')

theorem mem_pyStrip (l : List Char) (c : Char) (h : c ∈ pyStrip l) : c ∈ l := by
  unfold pyStrip at h
  rw [List.mem_reverse] at h
  have h1 : c ∈ (l.dropWhile isPySpace).reverse := List.dropWhile_subset _ h
  rw [List.mem_reverse] at h1
  exact List.dropWhile_subset _ h1

theorem mem_normalize_text (text : List Char) (c : Char)
    (h : c ∈ normalize_text text) :
    (isLowerAZ c || isPySpace c) = true := by
  unfold normalize_text at h
  have h1 := mem_pyStrip _ _ h
  unfold collapseWS at h1
  rcases mem_collapseAux _ false c h1 with h2 | h2
  · subst h2; simp [isPySpace]
  · rcases List.mem_map.mp h2 with ⟨d, _, hd⟩
    exact hd ▸ substNonAlpha_class d

theorem pySplitAux_sound (l : List Char) :
    ∀ acc : List Char, (∀ c ∈ acc, isPySpace c = false) →
      ∀ t ∈ pySplitAux acc l,
        t ≠ [] ∧ ∀ c ∈ t, (c ∈ acc ∨ c ∈ l) ∧ isPySpace c = false := by
  induction l with
  | nil =>
    intro acc hacc t ht
    simp only [pySplitAux] at ht
    by_cases ha : acc.isEmpty = true
    · rw [if_pos ha] at ht
      simp at ht
    · rw [if_neg ha, List.mem_singleton] at ht
      subst ht
      have hane : acc ≠ [] := fun h => ha (by simp [h])
      refine ⟨by simp [hane], ?_⟩
      intro c hc
      rw [List.mem_reverse] at hc
      exact ⟨Or.inl hc, hacc c hc⟩
  | cons d cs ih =>
    intro acc hacc t ht
    simp only [pySplitAux] at ht
    by_cases hd : isPySpace d = true
    · rw [if_pos hd] at ht
      by_cases ha : acc.isEmpty = true
      · rw [if_pos ha] at ht
        obtain ⟨hne, hmem⟩ := ih [] (by simp) t ht
        exact ⟨hne, fun c hc =>
          ⟨Or.inr (List.mem_cons_of_mem _ ((hmem c hc).1.resolve_left
            (by simp))), (hmem c hc).2⟩⟩
      · rw [if_neg ha, List.mem_cons] at ht
        rcases ht with ht | ht
        · subst ht
          have hane : acc ≠ [] := fun h => ha (by simp [h])
          refine ⟨by simp [hane], ?_⟩
          intro c hc
          rw [List.mem_reverse] at hc
          exact ⟨Or.inl hc, hacc c hc⟩
        · obtain ⟨hne, hmem⟩ := ih [] (by simp) t ht
          exact ⟨hne, fun c hc =>
            ⟨Or.inr (List.mem_cons_of_mem _ ((hmem c hc).1.resolve_left
              (by simp))), (hmem c hc).2⟩⟩
    · rw [if_neg hd] at ht
      have hacc' : ∀ c ∈ d :: acc, isPySpace c = false := by
        intro c hc
        rcases List.mem_cons.mp hc with hc | hc
        · subst hc; simpa using hd
        · exact hacc c hc
      obtain ⟨hne, hmem⟩ := ih (d :: acc) hacc' t ht
      refine ⟨hne, fun c hc => ⟨?_, (hmem c hc).2⟩⟩
      rcases (hmem c hc).1 with h1 | h1
      · rcases List.mem_cons.mp h1 with h2 | h2
        · exact Or.inr (h2 ▸ List.mem_cons_self _ _)
        · exact Or.inl h2
      · exact Or.inr (List.mem_cons_of_mem _ h1)

theorem pySplit_sound (l : List Char) (t : List Char) (ht : t ∈ pySplit l) :
    t ≠ [] ∧ ∀ c ∈ t, c ∈ l ∧ isPySpace c = false := by
  obtain ⟨hne, hmem⟩ := pySplitAux_sound l [] (by simp) t ht
  exact ⟨hne, fun c hc =>
    ⟨(hmem c hc).1.resolve_left (by simp), (hmem c hc).2⟩⟩

theorem tokens_wellformed (text : List Char) :
    ∀ t ∈ tokenize (normalize_text text),
      t ≠ [] ∧ ∀ c ∈ t, isLowerAZ c = true := by
  intro t ht
  unfold tokenize at ht
  by_cases hn : normalize_text text = []
  · simp [hn] at ht
  · rw [if_neg hn] at ht
    obtain ⟨hne, hmem⟩ := pySplit_sound _ t ht
    refine ⟨hne, ?_⟩
    intro c hc
    have h1 := (hmem c hc).1
    have h2 := (hmem c hc).2
    have h3 := mem_normalize_text text c h1
    rw [Bool.or_eq_true] at h3
    exact h3.resolve_right (by simp [h2])

/-- **C2.** Tokens produced from any input text are never empty and consist
only of lowercase letters `a`-`z` (no whitespace, digits or punctuation);
in particular an input of punctuation, digits and mixed separators only
yields the empty token sequence. -/
theorem tokenize_tokens_wellformed (text : List Char) :
    ((tokenize (normalize_text text)).all
        (fun t => !t.isEmpty && t.all isLowerAZ)) = true ∧
      tokenize (normalize_text "12 345!? ... \t\n;".toList) = [] := by
  refine ⟨?_, by decide⟩
  rw [List.all_eq_true]
  intro t ht
  obtain ⟨hne, hmem⟩ := tokens_wellformed text t ht
  rw [Bool.and_eq_true, List.all_eq_true]
  exact ⟨by simp [hne], hmem⟩

/-! ### most_common lemmas -/

instance : IsTotal (List Char × Nat) descCount :=
  ⟨fun a b => Nat.le_total b.2 a.2⟩

instance : IsTrans (List Char × Nat) descCount :=
  ⟨fun _ _ _ hab hbc => le_trans hbc hab⟩

theorem most_common_perm (m : List (List Char × Nat)) :
    (most_common m).Perm m :=
  List.perm_insertionSort descCount m

theorem most_common_sorted (m : List (List Char × Nat)) :
    (most_common m).Sorted descCount :=
  List.sorted_insertionSort descCount m

theorem le_foldr_max (l : List Nat) (x : Nat) (h : x ∈ l) :
    x ≤ l.foldr max 0 := by
  induction l with
  | nil => simp at h
  | cons a l ih =>
    rcases List.mem_cons.mp h with h | h
    · subst h; exact le_max_left _ _
    · exact le_trans (ih h) (le_max_right _ _)

theorem foldr_max_le (l : List Nat) (b : Nat) (h : ∀ x ∈ l, x ≤ b) :
    l.foldr max 0 ≤ b := by
  induction l with
  | nil => simp
  | cons a l ih =>
    simp only [List.foldr_cons]
    exact max_le (h a (List.mem_cons_self _ _))
      (ih fun x hx => h x (List.mem_cons_of_mem _ hx))

/-- **C3.** `compute_zipf_constant` returns `0` on the empty table and
otherwise exactly the maximal count of the table (as an exact model of the
Python float), independently of which word attains the maximum. -/
theorem compute_zipf_constant_spec :
    compute_zipf_constant [] = 0 ∧
      ∀ m : List (List Char × Nat), m ≠ [] →
        compute_zipf_constant m = (((m.map Prod.snd).foldr max 0 : ℕ) : ℚ) := by
  constructor
  · rfl
  · intro m hm
    have hperm := most_common_perm m
    have hsorted := most_common_sorted m
    rcases hs : most_common m with _ | ⟨p, rest⟩
    · rw [hs] at hperm
      exact absurd hperm.symm.eq_nil hm
    · rw [hs] at hperm hsorted
      unfold compute_zipf_constant
      rw [hs]
      have hmax : p.2 = (m.map Prod.snd).foldr max 0 := by
        apply le_antisymm
        · exact le_foldr_max _ _ (List.mem_map_of_mem Prod.snd
            (hperm.mem_iff.mp (List.mem_cons_self _ _)))
        · apply foldr_max_le
          intro x hx
          rcases List.mem_map.mp hx with ⟨q, hq, hqx⟩
          have hq' := hperm.mem_iff.mpr hq
          rcases List.mem_cons.mp hq' with h' | h'
          · subst h'; omega
          · have := (List.sorted_cons.mp hsorted).1 q h'
            unfold descCount at this
            omega
      show (p.2 : ℚ) = _
      rw [hmax]

/-- Witness for `compute_zipf_constant_spec` (spec Scenario 4). -/
theorem compute_zipf_constant_spec_witness :
    compute_zipf_constant
        [("the".toList, 100), ("of".toList, 50), ("and".toList, 25)]
      = (100 : ℚ) :=
  (compute_zipf_constant_spec.2 _ (by decide)).trans (by norm_num)

/-! ### pyEnumerate lemmas -/

theorem mem_pyEnumerate {α : Type} (l : List α) :
    ∀ (n : Nat) (x : Nat × α), x ∈ pyEnumerate n l → n ≤ x.1 ∧ x.2 ∈ l := by
  induction l with
  | nil => intro n x hx; simp [pyEnumerate] at hx
  | cons a l ih =>
    intro n x hx
    rcases List.mem_cons.mp hx with hx | hx
    · subst hx
      exact ⟨le_refl _, List.mem_cons_self _ _⟩
    · obtain ⟨h1, h2⟩ := ih (n + 1) x hx
      exact ⟨by omega, List.mem_cons_of_mem _ h2⟩

theorem pyEnumerate_map_fst {α : Type} (l : List α) :
    ∀ n : Nat, (pyEnumerate n l).map Prod.fst = List.range' n l.length := by
  induction l with
  | nil => intro n; rfl
  | cons a l ih =>
    intro n
    simp only [pyEnumerate, List.map_cons, List.length_cons, List.range']
    rw [ih (n + 1)]

theorem pyEnumerate_map_snd {α : Type} (l : List α) :
    ∀ n : Nat, (pyEnumerate n l).map Prod.snd = l := by
  induction l with
  | nil => intro n; rfl
  | cons a l ih =>
    intro n
    simp only [pyEnumerate, List.map_cons]
    rw [ih (n + 1)]

theorem pyEnumerate_pairwise {α : Type} (S : α → α → Prop) (l : List α) :
    ∀ n : Nat, l.Pairwise S →
      (pyEnumerate n l).Pairwise (fun x y => S x.2 y.2) := by
  induction l with
  | nil => intro n _; simp [pyEnumerate]
  | cons a l ih =>
    intro n hp
    rw [List.pairwise_cons] at hp
    rw [pyEnumerate, List.pairwise_cons]
    refine ⟨?_, ih (n + 1) hp.2⟩
    intro y hy
    exact hp.1 y.2 (mem_pyEnumerate l (n + 1) y hy).2

theorem compute_zipf_constant_nonneg (m : List (List Char × Nat)) :
    0 ≤ compute_zipf_constant m := by
  unfold compute_zipf_constant
  rcases most_common m with _ | ⟨p, rest⟩
  · exact le_refl 0
  · exact Nat.cast_nonneg p.2

theorem zipf_expected_antitone (C : ℚ) (hC : 0 ≤ C)
    (l : List (List Char × Nat)) :
    ∀ n : Nat, 1 ≤ n →
      List.Chain' (fun a b => b.expected_frequency ≤ a.expected_frequency)
        ((pyEnumerate n l).map (fun p =>
          ({ rank := p.1, word := p.2.1, frequency := p.2.2,
             expected_frequency :=
               if 0 < p.1 then C / (p.1 : ℚ) else 0 } : ZipfDataPoint))) := by
  induction l with
  | nil => intro n _; simp [pyEnumerate]
  | cons a l ih =>
    intro n hn
    rcases l with _ | ⟨b, l'⟩
    · simp [pyEnumerate]
    · rw [pyEnumerate, pyEnumerate, List.map_cons, List.map_cons,
        List.chain'_cons]
      constructor
      · simp only
        rw [if_pos (by omega : 0 < n), if_pos (by omega : 0 < n + 1)]
        have h1 : (0 : ℚ) < (n : ℚ) := by positivity
        have h2 : ((n : ℚ)) ≤ ((n + 1 : Nat) : ℚ) := by
          push_cast
          linarith
        rw [div_eq_mul_one_div C ((n : Nat) : ℚ),
          div_eq_mul_one_div C ((n + 1 : Nat) : ℚ)]
        exact mul_le_mul_of_nonneg_left
          (one_div_le_one_div_of_le h1 h2) hC
      · have := ih (n + 1) (by omega)
        rw [pyEnumerate, List.map_cons] at this
        exact this

/-- **C4.** Every entry of the Zipf series satisfies
`expected_frequency = zipf_constant / rank` for the constant computed from
the same table, and `expected_frequency` is non-increasing along the
series. -/
theorem get_zipf_data_expected (f : List (List Char × Nat)) :
    (∀ p ∈ get_zipf_data f,
        p.expected_frequency = compute_zipf_constant f / (p.rank : ℚ)) ∧
      (get_zipf_data f).Chain'
        (fun a b => b.expected_frequency ≤ a.expected_frequency) := by
  constructor
  · intro p hp
    unfold get_zipf_data at hp
    rcases List.mem_map.mp hp with ⟨x, hx, hxp⟩
    have h1 := (mem_pyEnumerate _ 1 x hx).1
    subst hxp
    simp only
    rw [if_pos (by omega : 0 < x.1)]
  · unfold get_zipf_data
    exact zipf_expected_antitone _ (compute_zipf_constant_nonneg f) _ 1
      (le_refl 1)

/-- Witness for `get_zipf_data_expected`: the rank-1 entry of the table
`{"the": 3, "cat": 1}` has `expected_frequency = zipf_constant / 1`. -/
theorem get_zipf_data_expected_witness :
    (⟨1, "the".toList, 3, 3⟩ : ZipfDataPoint) ∈
        get_zipf_data [("the".toList, 3), ("cat".toList, 1)] ∧
      (⟨1, "the".toList, 3, 3⟩ : ZipfDataPoint).expected_frequency
        = compute_zipf_constant [("the".toList, 3), ("cat".toList, 1)]
            / ((1 : Nat) : ℚ) := by
  have hmem : (⟨1, "the".toList, 3, 3⟩ : ZipfDataPoint) ∈
      get_zipf_data [("the".toList, 3), ("cat".toList, 1)] := by
    have h : get_zipf_data [("the".toList, 3), ("cat".toList, 1)]
        = [⟨1, "the".toList, 3, 3⟩, ⟨2, "cat".toList, 1, 3/2⟩] := by
      norm_num [get_zipf_data, most_common, compute_zipf_constant,
        pyEnumerate, descCount]
    rw [h]
    exact List.mem_cons_self _ _
  exact ⟨hmem, (get_zipf_data_expected _).1 _ hmem⟩

/-- Variant of `get_zipf_data` with the dead `if rank > 0` fallback of
`main.py` removed: `zipf_constant / rank` is applied unconditionally. -/
def get_zipf_data_unguarded (freqs : List (List Char × Nat)) :
    List ZipfDataPoint :=
  let zipf_constant := compute_zipf_constant freqs
  (pyEnumerate 1 (most_common freqs)).map (fun p =>
    { rank := p.1
      word := p.2.1
      frequency := p.2.2
      expected_frequency := zipf_constant / (p.1 : ℚ) })

/-- **C9.** Every rank in the Zipf series is at least 1 (enumeration starts
at 1), so the `if rank > 0` guard always takes its then-branch: the series
equals the variant with the fallback removed, and no division by zero can
occur. -/
theorem get_zipf_rank_positive (f : List (List Char × Nat)) :
    get_zipf_data f = get_zipf_data_unguarded f ∧
      ∀ p ∈ get_zipf_data f, 1 ≤ p.rank := by
  constructor
  · unfold get_zipf_data get_zipf_data_unguarded
    apply List.map_congr_left
    intro x hx
    have h1 := (mem_pyEnumerate _ 1 x hx).1
    rw [if_pos (by omega : 0 < x.1)]
  · intro p hp
    unfold get_zipf_data at hp
    rcases List.mem_map.mp hp with ⟨x, hx, hxp⟩
    have h1 := (mem_pyEnumerate _ 1 x hx).1
    subst hxp
    simpa using h1

/-- Witness for `get_zipf_rank_positive`: the rank-2 entry of the table
`{"the": 3, "cat": 1}`. -/
theorem get_zipf_rank_positive_witness :
    (⟨2, "cat".toList, 1, 3/2⟩ : ZipfDataPoint) ∈
        get_zipf_data [("the".toList, 3), ("cat".toList, 1)] ∧
      1 ≤ (⟨2, "cat".toList, 1, 3/2⟩ : ZipfDataPoint).rank := by
  have hmem : (⟨2, "cat".toList, 1, 3/2⟩ : ZipfDataPoint) ∈
      get_zipf_data [("the".toList, 3), ("cat".toList, 1)] := by
    have h : get_zipf_data [("the".toList, 3), ("cat".toList, 1)]
        = [⟨1, "the".toList, 3, 3⟩, ⟨2, "cat".toList, 1, 3/2⟩] := by
      norm_num [get_zipf_data, most_common, compute_zipf_constant,
        pyEnumerate, descCount]
    rw [h]
    exact List.mem_cons_of_mem _ (List.mem_cons_self _ _)
  exact ⟨hmem, (get_zipf_rank_positive _).2 _ hmem⟩

/-! ### Ranking lemmas -/

theorem zipf_words_eq (f : List (List Char × Nat)) :
    (get_zipf_data f).map ZipfDataPoint.word
      = (most_common f).map Prod.fst := by
  unfold get_zipf_data
  rw [List.map_map]
  show (pyEnumerate 1 (most_common f)).map (Prod.fst ∘ Prod.snd) = _
  rw [← List.map_map, pyEnumerate_map_snd]

theorem zipf_ranks_eq (f : List (List Char × Nat)) :
    (get_zipf_data f).map ZipfDataPoint.rank = List.range' 1 f.length := by
  unfold get_zipf_data
  rw [List.map_map]
  show (pyEnumerate 1 (most_common f)).map Prod.fst = _
  rw [pyEnumerate_map_fst, (most_common_perm f).length_eq]

theorem zipf_freq_pairwise (f : List (List Char × Nat)) :
    (get_zipf_data f).Pairwise (fun a b => b.frequency ≤ a.frequency) := by
  unfold get_zipf_data
  rw [List.pairwise_map]
  exact pyEnumerate_pairwise descCount (most_common f) 1
    (most_common_sorted f)

/-- **C5.** For a table with `N` (distinct) keys, the Zipf series carries
ranks exactly `1..N` in order, is sorted by non-increasing frequency, and
its words are exactly the distinct words of the table, each exactly once. -/
theorem get_zipf_data_ranking (f : List (List Char × Nat))
    (h : (f.map Prod.fst).Nodup) :
    (get_zipf_data f).map ZipfDataPoint.rank = List.range' 1 f.length ∧
      (get_zipf_data f).Pairwise (fun a b => b.frequency ≤ a.frequency) ∧
      ((get_zipf_data f).map ZipfDataPoint.word).Perm (f.map Prod.fst) ∧
      ((get_zipf_data f).map ZipfDataPoint.word).Nodup := by
  have hwords : ((get_zipf_data f).map ZipfDataPoint.word).Perm
      (f.map Prod.fst) := by
    rw [zipf_words_eq]
    exact (most_common_perm f).map Prod.fst
  exact ⟨zipf_ranks_eq f, zipf_freq_pairwise f, hwords,
    hwords.nodup_iff.mpr h⟩

/-- Witness for `get_zipf_data_ranking` on the table
`{"the": 3, "cat": 1}`. -/
theorem get_zipf_data_ranking_witness :
    (get_zipf_data [("the".toList, 3), ("cat".toList, 1)]).map
          ZipfDataPoint.rank = List.range' 1 2 ∧
      (get_zipf_data [("the".toList, 3), ("cat".toList, 1)]).Pairwise
        (fun a b => b.frequency ≤ a.frequency) ∧
      ((get_zipf_data [("the".toList, 3), ("cat".toList, 1)]).map
          ZipfDataPoint.word).Perm ["the".toList, "cat".toList] ∧
      ((get_zipf_data [("the".toList, 3), ("cat".toList, 1)]).map
          ZipfDataPoint.word).Nodup :=
  get_zipf_data_ranking _ (by decide)

/-! ### Endpoint theorems -/

/-- **C6.** Requesting the frequency distribution or the Zipf analysis for
an identifier missing from the cache yields the distinct 404 not-found
error, never any successful (e.g. empty computed) response. -/
theorem notfound_signals_404 (cache : List Char → Option CachedText)
    (t : List Char) (h : cache t = none) :
    get_frequency cache t = .httpError 404 (notFoundDetail t) ∧
      get_zipf cache t = .httpError 404 (notFoundDetail t) ∧
      (∀ r : FrequencyResponse, get_frequency cache t ≠ .ok r) ∧
      (∀ r : ZipfResponse, get_zipf cache t ≠ .ok r) := by
  unfold get_frequency get_zipf
  rw [h]
  exact ⟨rfl, rfl, fun r hr => ApiResult.noConfusion hr,
    fun r hr => ApiResult.noConfusion hr⟩

/-- Witness for `notfound_signals_404`: the empty cache. -/
theorem notfound_signals_404_witness :
    get_frequency (fun _ => none) "ghost".toList
        = .httpError 404 (notFoundDetail "ghost".toList) ∧
      get_frequency (fun _ => none) "ghost".toList
        ≠ .ok ⟨"ghost".toList, [], 0, 0, []⟩ :=
  ⟨(notfound_signals_404 _ _ rfl).1,
    (notfound_signals_404 _ _ rfl).2.2.1 _⟩

/-- **C10.** For the same cached document, the frequency endpoint and the
Zipf endpoint list words in exactly the same order (both enumerate the same
`most_common()` sequence, so ties are broken identically). -/
theorem endpoints_word_order_agree (cache : List Char → Option CachedText)
    (t : List Char) (fr : FrequencyResponse) (zr : ZipfResponse)
    (h1 : get_frequency cache t = .ok fr)
    (h2 : get_zipf cache t = .ok zr) :
    fr.frequencies.map WordFrequency.word
      = zr.data.map ZipfDataPoint.word := by
  unfold get_frequency at h1
  unfold get_zipf at h2
  rcases hc : cache t with _ | doc
  · rw [hc] at h1
    exact ApiResult.noConfusion h1
  · rw [hc] at h1 h2
    injection h1 with h1
    injection h2 with h2
    subst h1
    subst h2
    rw [zipf_words_eq, List.map_map]
    exact List.map_congr_left (fun a _ => rfl)

/-- Witness for `endpoints_word_order_agree`: a cached document whose
table is empty. -/
theorem endpoints_word_order_agree_witness :
    (FrequencyResponse.frequencies ⟨"b".toList, [], 0, 0, []⟩).map
        WordFrequency.word
      = (ZipfResponse.data ⟨"b".toList, [], 0, 0, []⟩).map
          ZipfDataPoint.word :=
  endpoints_word_order_agree (fun _ => some ⟨[], [], []⟩) "b".toList
    ⟨"b".toList, [], 0, 0, []⟩ ⟨"b".toList, [], 0, 0, []⟩ rfl rfl

/-- **C7.** Normalization lowercases and turns every non-letter character
into a separator rather than deleting it: the three concrete scenarios of
the spec. -/
theorem normalize_text_scenarios :
    normalize_text "Hello, World!".toList = "hello world".toList ∧
      normalize_text "Test 123 text".toList = "test text".toList ∧
      tokenize (normalize_text "quick-brown".toList)
        = ["quick".toList, "brown".toList] :=
  ⟨by decide, by decide, by decide⟩

/-! ### Idempotence of normalize-then-rejoin (C8) -/

/-- Model of joining the tokens with single spaces. -/
def joinSpaces : List (List Char) → List Char
  | [] => []
  | [t] => t
  | t :: t' :: ts => t ++ ' ' :: joinSpaces (t' :: ts)

theorem joinSpaces_cons_eq (t : List Char) (ts : List (List Char)) :
    joinSpaces (t :: ts)
      = t ++ (if ts.isEmpty then [] else ' ' :: joinSpaces ts) := by
  rcases ts with _ | ⟨u, us⟩
  · simp [joinSpaces]
  · simp [joinSpaces]

theorem list_map_eq_self {α : Type} (f : α → α) (l : List α)
    (h : ∀ c ∈ l, f c = c) : l.map f = l := by
  induction l with
  | nil => rfl
  | cons a l ih =>
    rw [List.map_cons, h a (List.mem_cons_self _ _),
      ih (fun c hc => h c (List.mem_cons_of_mem _ hc))]

theorem mem_joinSpaces (ts : List (List Char)) (c : Char)
    (h : c ∈ joinSpaces ts) : c = ' ' ∨ ∃ t ∈ ts, c ∈ t := by
  induction ts with
  | nil => simp [joinSpaces] at h
  | cons t ts ih =>
    rcases ts with _ | ⟨t', ts'⟩
    · exact Or.inr ⟨t, List.mem_cons_self _ _, h⟩
    · rw [show joinSpaces (t :: t' :: ts') = t ++ ' ' :: joinSpaces (t' :: ts')
        from rfl] at h
      rcases List.mem_append.mp h with h | h
      · exact Or.inr ⟨t, List.mem_cons_self _ _, h⟩
      · rcases List.mem_cons.mp h with h | h
        · exact Or.inl h
        · rcases ih h with h | ⟨u, hu, hcu⟩
          · exact Or.inl h
          · exact Or.inr ⟨u, List.mem_cons_of_mem _ hu, hcu⟩

theorem isLowerAZ_not_space (c : Char) (h : isLowerAZ c = true) :
    isPySpace c = false := by
  unfold isLowerAZ at h
  rw [decide_eq_true_eq] at h
  unfold isPySpace
  rw [decide_eq_false_iff_not]
  intro hmem
  simp only [List.mem_cons, List.not_mem_nil, or_false] at hmem
  omega

theorem pyLower_fix (c : Char) (h : isLowerAZ c = true ∨ c = ' ') :
    pyLower c = c := by
  have hn : ¬(65 ≤ c.toNat ∧ c.toNat ≤ 90) := by
    rcases h with h | h
    · unfold isLowerAZ at h
      rw [decide_eq_true_eq] at h
      omega
    · subst h
      decide
  unfold pyLower
  rw [if_neg hn]

theorem substNonAlpha_fix (c : Char) (h : isLowerAZ c = true ∨ c = ' ') :
    substNonAlpha c = c := by
  unfold substNonAlpha
  rcases h with h | h
  · rw [if_pos (by simp [h])]
  · subst h
    rw [if_pos (by decide)]

theorem collapseAux_cons_nonspace (b : Bool) (c : Char) (cs : List Char)
    (hc : isPySpace c = false) :
    collapseAux b (c :: cs) = c :: collapseAux false cs := by
  cases b <;> simp [collapseAux, hc]

theorem collapseAux_cons_space (c : Char) (cs : List Char)
    (hc : isPySpace c = true) :
    collapseAux false (c :: cs) = ' ' :: collapseAux true cs := by
  simp [collapseAux, hc]

theorem collapseAux_nonspace_append (t r : List Char)
    (h : ∀ c ∈ t, isPySpace c = false) :
    collapseAux false (t ++ r) = t ++ collapseAux false r := by
  induction t with
  | nil => rfl
  | cons c cs ih =>
    rw [List.cons_append,
      collapseAux_cons_nonspace false c _ (h c (List.mem_cons_self _ _)),
      ih (fun d hd => h d (List.mem_cons_of_mem _ hd)), List.cons_append]

theorem collapse_joined (ts : List (List Char))
    (h : ∀ t ∈ ts, t ≠ [] ∧ ∀ c ∈ t, isPySpace c = false) :
    collapseAux false (joinSpaces ts) = joinSpaces ts := by
  induction ts with
  | nil => rfl
  | cons t ts ih =>
    rcases ts with _ | ⟨t', ts'⟩
    · have h1 := collapseAux_nonspace_append t []
        ((h t (List.mem_cons_self _ _)).2)
      simpa [joinSpaces, collapseAux] using h1
    · have h1 := h t (List.mem_cons_self _ _)
      have h2 := h t' (List.mem_cons_of_mem _ (List.mem_cons_self _ _))
      have hrest : ∀ u ∈ t' :: ts', u ≠ [] ∧ ∀ c ∈ u, isPySpace c = false :=
        fun u hu => h u (List.mem_cons_of_mem _ hu)
      obtain ⟨c, cs, hcc⟩ := List.exists_cons_of_ne_nil h2.1
      have hcns : isPySpace c = false :=
        h2.2 c (by rw [hcc]; exact List.mem_cons_self _ _)
      have hj : joinSpaces (t' :: ts')
          = c :: (cs ++ (if ts'.isEmpty then [] else ' ' :: joinSpaces ts')) := by
        rw [joinSpaces_cons_eq, hcc, List.cons_append]
      have hJ : collapseAux true (joinSpaces (t' :: ts'))
          = joinSpaces (t' :: ts') := by
        rw [hj, collapseAux_cons_nonspace true c _ hcns,
          ← collapseAux_cons_nonspace false c _ hcns, ← hj, ih hrest]
      show collapseAux false (t ++ ' ' :: joinSpaces (t' :: ts'))
          = t ++ ' ' :: joinSpaces (t' :: ts')
      rw [collapseAux_nonspace_append t _ h1.2,
        collapseAux_cons_space ' ' _ (by decide), hJ]

theorem dropWhile_eq_self_of_head (p : Char → Bool) (l : List Char)
    (h : ∀ c cs, l = c :: cs → p c = false) : l.dropWhile p = l := by
  rcases l with _ | ⟨c, cs⟩
  · rfl
  · rw [List.dropWhile_cons, h c cs rfl]
    simp

theorem pyStrip_eq_self (l : List Char)
    (h1 : ∀ c cs, l = c :: cs → isPySpace c = false)
    (h2 : ∀ c cs, l.reverse = c :: cs → isPySpace c = false) :
    pyStrip l = l := by
  unfold pyStrip
  rw [dropWhile_eq_self_of_head isPySpace l h1,
    dropWhile_eq_self_of_head isPySpace l.reverse h2, List.reverse_reverse]

theorem joinSpaces_head (ts : List (List Char))
    (h : ∀ t ∈ ts, t ≠ [] ∧ ∀ c ∈ t, isPySpace c = false) :
    ∀ c cs, joinSpaces ts = c :: cs → isPySpace c = false := by
  intro c cs hc
  rcases ts with _ | ⟨t, rest⟩
  · simp [joinSpaces] at hc
  · rw [joinSpaces_cons_eq] at hc
    obtain ⟨d, ds, hd⟩ :=
      List.exists_cons_of_ne_nil (h t (List.mem_cons_self _ _)).1
    rw [hd, List.cons_append] at hc
    injection hc with hc1 _
    have hct : c ∈ t := by
      rw [hd, ← hc1]
      exact List.mem_cons_self _ _
    exact (h t (List.mem_cons_self _ _)).2 c hct

theorem joinSpaces_reverse_head (ts : List (List Char))
    (h : ∀ t ∈ ts, t ≠ [] ∧ ∀ c ∈ t, isPySpace c = false) :
    ∀ c cs, (joinSpaces ts).reverse = c :: cs → isPySpace c = false := by
  induction ts with
  | nil => intro c cs hc; simp [joinSpaces] at hc
  | cons t ts ih =>
    rcases ts with _ | ⟨t', ts'⟩
    · intro c cs hc
      have hmem : c ∈ (joinSpaces [t]).reverse := by
        rw [hc]
        exact List.mem_cons_self _ _
      rw [List.mem_reverse] at hmem
      exact (h t (List.mem_cons_self _ _)).2 c hmem
    · intro c cs hc
      have hrest : ∀ u ∈ t' :: ts', u ≠ [] ∧ ∀ d ∈ u, isPySpace d = false :=
        fun u hu => h u (List.mem_cons_of_mem _ hu)
      have hrev : (joinSpaces (t :: t' :: ts')).reverse
          = (joinSpaces (t' :: ts')).reverse ++ (' ' :: t.reverse) := by
        show (t ++ ' ' :: joinSpaces (t' :: ts')).reverse = _
        rw [List.reverse_append, List.reverse_cons, List.append_assoc]
        simp
      rcases hJr : (joinSpaces (t' :: ts')).reverse with _ | ⟨d, ds⟩
      · have hnil : joinSpaces (t' :: ts') = [] := by
          have h0 := congrArg List.reverse hJr
          simpa using h0
        rw [joinSpaces_cons_eq] at hnil
        rcases List.append_eq_nil.mp hnil with ⟨hnil1, _⟩
        exact absurd hnil1 (hrest t' (List.mem_cons_self _ _)).1
      · rw [hrev, hJr, List.cons_append] at hc
        injection hc with hc1 _
        rw [← hc1]
        exact ih hrest d ds hJr

theorem pySplitAux_cons_nonspace (acc : List Char) (c : Char) (cs : List Char)
    (hc : isPySpace c = false) :
    pySplitAux acc (c :: cs) = pySplitAux (c :: acc) cs := by
  simp [pySplitAux, hc]

theorem pySplitAux_cons_space (acc : List Char) (c : Char) (cs : List Char)
    (hc : isPySpace c = true) (hacc : acc ≠ []) :
    pySplitAux acc (c :: cs) = acc.reverse :: pySplitAux [] cs := by
  have ha : acc.isEmpty = false := by
    simp [hacc]
  simp [pySplitAux, hc, ha]

theorem pySplitAux_nonspace_append (t : List Char) :
    ∀ acc r : List Char, (∀ c ∈ t, isPySpace c = false) →
      pySplitAux acc (t ++ r) = pySplitAux (t.reverse ++ acc) r := by
  induction t with
  | nil => intro acc r _; rfl
  | cons c cs ih =>
    intro acc r h
    rw [List.cons_append,
      pySplitAux_cons_nonspace acc c _ (h c (List.mem_cons_self _ _)),
      ih (c :: acc) r (fun d hd => h d (List.mem_cons_of_mem _ hd)),
      List.reverse_cons, List.append_assoc]
    simp

theorem split_joined (ts : List (List Char))
    (h : ∀ t ∈ ts, t ≠ [] ∧ ∀ c ∈ t, isPySpace c = false) :
    pySplit (joinSpaces ts) = ts := by
  induction ts with
  | nil => rfl
  | cons t ts ih =>
    have h1 := h t (List.mem_cons_self _ _)
    have hrevne : t.reverse.isEmpty = false := by
      simp [h1.1]
    rcases ts with _ | ⟨t', ts'⟩
    · show pySplitAux [] (joinSpaces [t]) = [t]
      calc pySplitAux [] (joinSpaces [t])
          = pySplitAux [] (t ++ []) := by rw [List.append_nil]; rfl
        _ = pySplitAux (t.reverse ++ []) [] :=
            pySplitAux_nonspace_append t [] [] h1.2
        _ = pySplitAux t.reverse [] := by rw [List.append_nil]
        _ = [t] := by simp [pySplitAux, hrevne]
    · have hrest : ∀ u ∈ t' :: ts', u ≠ [] ∧ ∀ c ∈ u, isPySpace c = false :=
        fun u hu => h u (List.mem_cons_of_mem _ hu)
      show pySplitAux [] (t ++ ' ' :: joinSpaces (t' :: ts')) = t :: t' :: ts'
      rw [pySplitAux_nonspace_append t [] _ h1.2, List.append_nil,
        pySplitAux_cons_space _ ' ' _ (by decide) (by simp [h1.1]),
        List.reverse_reverse]
      show t :: pySplit (joinSpaces (t' :: ts')) = t :: t' :: ts'
      rw [ih hrest]

theorem tokenize_eq_pySplit (l : List Char) : tokenize l = pySplit l := by
  unfold tokenize
  by_cases h : l = []
  · subst h; rfl
  · rw [if_neg h]

theorem normalize_joined_eq (ts : List (List Char))
    (h : ∀ t ∈ ts, t ≠ [] ∧ ∀ c ∈ t, isLowerAZ c = true) :
    normalize_text (joinSpaces ts) = joinSpaces ts := by
  have hns : ∀ t ∈ ts, t ≠ [] ∧ ∀ c ∈ t, isPySpace c = false :=
    fun t ht => ⟨(h t ht).1,
      fun c hc => isLowerAZ_not_space c ((h t ht).2 c hc)⟩
  have hclass : ∀ c ∈ joinSpaces ts, isLowerAZ c = true ∨ c = ' ' := by
    intro c hc
    rcases mem_joinSpaces ts c hc with hc' | ⟨t, ht, hct⟩
    · exact Or.inr hc'
    · exact Or.inl ((h t ht).2 c hct)
  unfold normalize_text
  rw [list_map_eq_self pyLower _ (fun c hc => pyLower_fix c (hclass c hc)),
    list_map_eq_self substNonAlpha _
      (fun c hc => substNonAlpha_fix c (hclass c hc))]
  unfold collapseWS
  rw [collapse_joined ts hns]
  exact pyStrip_eq_self _ (joinSpaces_head ts hns)
    (joinSpaces_reverse_head ts hns)

/-- **C8.** Joining the token sequence of a text with single spaces and
running the normalize-tokenize pipeline again returns the very same token
sequence (rejoin-with-single-spaces is a fixed point of the tokenizer). -/
theorem tokenize_rejoin_fixed_point (text : List Char) :
    tokenize (normalize_text (joinSpaces (tokenize (normalize_text text))))
      = tokenize (normalize_text text) := by
  have hwf := tokens_wellformed text
  have hns : ∀ t ∈ tokenize (normalize_text text),
      t ≠ [] ∧ ∀ c ∈ t, isPySpace c = false :=
    fun t ht => ⟨(hwf t ht).1,
      fun c hc => isLowerAZ_not_space c ((hwf t ht).2 c hc)⟩
  rw [normalize_joined_eq _ hwf, tokenize_eq_pySplit]
  exact split_joined _ hns
